import Mathlib

/-!
# cpp-generators: the `reverse` generator

A shallow embedding of `reverse.hh`: the generator object `reverse_generator`, its
member `generate`, and the three trait specialisations that register it with the
grammar framework; and of the demo driver `main` of `reverse.cpp`.

Modelling choices, all read off the source:

* `std::string` is a `List Char`; `value.length()` is the list length, a `size_t`
  (64 bits, unsigned);
* `int` is 32 bits, two's complement; the initialiser `int i = value.length() - 1`
  is an unsigned 64-bit subtraction followed by a conversion to `int` modulo `2^32`;
* the output iterator is a type `σ` of sink states with one operation, the write
  `*sink++ = c`; the template parameter `OutputIterator` becomes the class below;
* `generate` returns the final sink state together with its `bool` result.
-/

namespace CppGenerators

/-! ## Machine integers -/

/-- Width in bits of `std::size_t`, the type of `value.length()`. -/
def SIZE_BITS : Nat := 64

/-- Width in bits of `int`, the type of the loop variable `i`. -/
def INT_BITS : Nat := 32

/-- Unsigned subtraction `a - b` in `size_t`: the result is taken modulo `2^64`. -/
def size_sub (a b : Nat) : Nat :=
  (a % 2 ^ SIZE_BITS + 2 ^ SIZE_BITS - b % 2 ^ SIZE_BITS) % 2 ^ SIZE_BITS

/-- Conversion of an unsigned value to `int`: the value modulo `2^32`, read as a
two's-complement number. -/
def to_int (n : Nat) : Int :=
  if n % 2 ^ INT_BITS < 2 ^ (INT_BITS - 1) then ((n % 2 ^ INT_BITS : Nat) : Int)
  else ((n % 2 ^ INT_BITS : Nat) : Int) - ((2 ^ INT_BITS : Nat) : Int)

/-! ## Strings and sinks -/

/-- Conversion of an `int` to `size_t`, as happens to the index in `value[i]`: the value
modulo `2^64`. -/
def to_size (i : Int) : Nat :=
  (i % ((2 ^ SIZE_BITS : Nat) : Int)).toNat

/-- The expression `value[i]` for an `int` index, made total. Inside the string it is
the character stored there; at `value.length()` the C++ string yields the terminating
null character, and this function returns the null character for every index outside
the string. -/
def char_at (value : List Char) (i : Int) : Char :=
  match value.get? (to_size i) with
  | some c => c
  | none => Char.ofNat 0

/-- The operations `generate` needs from its template parameter `OutputIterator`:
the single statement `*sink++ = c`, which writes `c` and advances the iterator. -/
class OutputIterator (σ : Type) where
  /-- The write `*sink++ = c`. -/
  put : σ → Char → σ

/-- A capturing sink, `std::back_inserter` over a `std::string`: a write appends
the character to what has been written so far. -/
instance captureSink : OutputIterator (List Char) where
  put written c := written ++ [c]

/-- A sink over a stream with room for `room` characters. A write that does not fit
is rejected: the stream's fail flag is raised and nothing is stored; once the flag
is up every later write is dropped, as with `std::ostream_iterator`. -/
structure bounded_sink where
  /-- Characters the stream has accepted. -/
  written : List Char
  /-- Number of characters the stream can hold. -/
  room : Nat
  /-- The stream's fail flag: some write was rejected. -/
  failed : Bool
deriving DecidableEq

instance boundedSink : OutputIterator bounded_sink where
  put s c :=
    if s.failed then s
    else if s.written.length < s.room then ⟨s.written ++ [c], s.room, false⟩
    else ⟨s.written, s.room, true⟩

/-! ## The generator -/

/-- The loop `for (int i = start; i >= 0; i--) body(i)`, threading the state the body
updates. The decrement never overflows: it is only executed when `i >= 0`. -/
def for_down {σ : Type} (body : Int → σ → σ) (i : Int) (s : σ) : σ :=
  if h : i ≥ 0 then for_down body (i - 1) (body i s) else s
termination_by (i + 1).toNat
decreasing_by omega

/-- The initialiser of the loop variable, `int i = value.length() - 1`. -/
def start_index (value : List Char) : Int :=
  to_int (size_sub value.length 1)

/-- The type `struct reverse_generator`: it has no data members. -/
structure reverse_generator where
deriving DecidableEq

/-- The global object `reverse` declared with the struct. -/
def reverse : reverse_generator := ⟨⟩

/-- The member function
`bool generate(OutputIterator sink, std::string const& value, Context const& context) const`.
It is `const` and the struct is empty, so only the sink changes; the result pairs the
final sink with the returned `bool`. -/
def reverse_generator.generate {σ Context : Type} [OutputIterator σ]
    (_self : reverse_generator) (sink : σ) (value : List Char) (_context : Context) :
    σ × Bool :=
  (for_down (fun i s => OutputIterator.put s (char_at value i)) (start_index value) sink, true)

/-! ## The loop, iteration by iteration -/

/-- The loop of `generate` run for at most `fuel` iterations from the index `i`. Each
iteration tests `i >= 0`, performs `*sink++ = value[i]` and decrements `i`. The result is
`none` when the test still succeeds after `fuel` iterations; otherwise it is the list of
the values of `i` at which `value[i]` was read, in the order of the reads, with the
sink as the loop leaves it. -/
def loop_run {σ : Type} [OutputIterator σ] (value : List Char) :
    Nat → Int → σ → Option (List Int × σ)
  | 0, i, sink => if i ≥ 0 then none else some ([], sink)
  | fuel + 1, i, sink =>
    if i ≥ 0 then
      (loop_run value fuel (i - 1) (OutputIterator.put sink (char_at value i))).map
        (fun r => (i :: r.1, r.2))
    else some ([], sink)

/-! ## Trait specialisations -/

/-- The trait `is_eager_generator<T>`. -/
class is_eager_generator (T : Type) where
  /-- The member `value` of the trait. -/
  value : Bool

/-- The trait `is_generator<T>`. -/
class is_generator (T : Type) where
  /-- The member `value` of the trait. -/
  value : Bool

/-- The trait `type_traits::attributes_needed<T>`, an `std::integral_constant<int, N>`. -/
class attributes_needed (T : Type) where
  /-- The member `value` of the trait. -/
  value : Int

/-- The specialisation `is_eager_generator<::reverse_generator> : std::true_type`. -/
instance : is_eager_generator reverse_generator where
  value := true

/-- The specialisation `is_generator<::reverse_generator> : std::true_type`. -/
instance : is_generator reverse_generator where
  value := true

/-- The specialisation
`attributes_needed<::reverse_generator> : std::integral_constant<int, 1>`. -/
instance : attributes_needed reverse_generator where
  value := 1

/-! ## The demo driver (`reverse.cpp`) -/

/-- Modelled from the spec: `as_generator` of the framework header `generator.hpp`, which
is not among the sources. A generator whose `is_eager_generator` trait is true is
evaluated as it is: the call returns its argument. -/
def as_generator {T : Type} [is_eager_generator T] (g : T)
    (_eager : is_eager_generator.value T = true) : T := g

/-- Modelled from the spec: the type `context_null` of the framework header `context.hpp`,
which is not among the sources: an empty context, opaque to the generator. -/
structure context_null where
deriving DecidableEq

/-- The two standard streams of the process: what has been written to `std::cout` and
to `std::cerr`. -/
structure console where
  /-- Characters written to `std::cout`. -/
  cout : List Char
  /-- Characters written to `std::cerr`. -/
  cerr : List Char
deriving DecidableEq

/-- The sink `std::ostream_iterator<char>(std::cout)`: a write sends the character to
`std::cout`. -/
instance coutSink : OutputIterator console where
  put streams c := ⟨streams.cout ++ [c], streams.cerr⟩

/-- The character `std::endl` writes: a newline. -/
def endl : Char := Char.ofNat 10

/-- The statements of `main` that follow the call of `generate`, from the streams the
call left and the `bool` it returned: on `false` the message `Failed!` and a newline go
to `std::cerr` and the exit code is `1`; otherwise a newline goes to `std::cout` and the
exit code is `0`. -/
def main_after (r : console × Bool) : console × Int :=
  if !r.2 then (⟨r.1.cout, r.1.cerr ++ "Failed!".toList ++ [endl]⟩, 1)
  else (⟨r.1.cout ++ [endl], r.1.cerr⟩, 0)

/-- The function `int main(int argc, char const *argv[])`, from the streams as they are
when it starts: the streams when it returns, and its exit code. The local `out` is
never used. -/
def main (_argc : Int) (_argv : List (List Char)) (streams : console) : console × Int :=
  main_after
    ((as_generator reverse rfl).generate streams "John Doe".toList (⟨⟩ : context_null))

/-! ## Unfolding the loop -/

theorem for_down_neg {σ : Type} (body : Int → σ → σ) (i : Int) (s : σ) (h : i < 0) :
    for_down body i s = s := by
  rw [for_down]
  simp [not_le.mpr h]

theorem for_down_nonneg {σ : Type} (body : Int → σ → σ) (i : Int) (s : σ) (h : 0 ≤ i) :
    for_down body i s = for_down body (i - 1) (body i s) := by
  rw [for_down]
  simp [h]

/-! ## The start index -/

theorem start_index_nil : start_index [] = -1 := by
  simp [start_index, size_sub, to_int, SIZE_BITS, INT_BITS]

theorem start_index_of_le (value : List Char) (hpos : 0 < value.length)
    (hle : value.length ≤ 2 ^ 31) : start_index value = (value.length : Int) - 1 := by
  have h1 : size_sub value.length 1 = value.length - 1 := by
    simp only [size_sub, SIZE_BITS]
    omega
  have h2 : (value.length - 1) % 2 ^ INT_BITS = value.length - 1 := by
    simp only [INT_BITS]
    omega
  have h3 : value.length - 1 < 2 ^ (INT_BITS - 1) := by
    simp only [INT_BITS]
    omega
  simp only [start_index, h1, to_int, h2, if_pos h3]
  omega

/-! ## The loop in closed form -/

theorem to_size_of_nat (n : Nat) (hn : n < 2 ^ SIZE_BITS) : to_size (n : Int) = n := by
  unfold to_size
  rw [← Int.natCast_mod, Int.toNat_natCast]
  exact Nat.mod_eq_of_lt hn

theorem char_at_of_lt (value : List Char) (n : Nat) (h : n < value.length)
    (hn : n < 2 ^ SIZE_BITS) : char_at value (n : Int) = value.get ⟨n, h⟩ := by
  simp [char_at, to_size_of_nat n hn, List.getElem?_eq_getElem h]

theorem for_down_put {σ : Type} [OutputIterator σ] (value : List Char) (n : Nat)
    (h : n < value.length) (hb : n < 2 ^ SIZE_BITS) (s : σ) :
    for_down (fun i s => OutputIterator.put s (char_at value i)) (n : Int) s
      = List.foldl OutputIterator.put s (value.take (n + 1)).reverse := by
  induction n generalizing s with
  | zero =>
    rw [for_down_nonneg _ _ _ (by simp), for_down_neg _ _ _ (by simp)]
    rw [char_at_of_lt value 0 h hb]
    cases value with
    | nil => simp at h
    | cons c cs => simp
  | succ n ih =>
    have hn : n < value.length := by omega
    have hb0 : n < 2 ^ SIZE_BITS := by omega
    rw [for_down_nonneg _ _ _ (by positivity)]
    have hstep : ((n + 1 : Nat) : Int) - 1 = (n : Int) := by push_cast; ring
    rw [hstep, ih hn hb0, char_at_of_lt value (n + 1) h hb]
    have ht : value.take (n + 1 + 1) = value.take (n + 1) ++ [value.get ⟨n + 1, h⟩] := by
      rw [List.take_succ, List.getElem?_eq_getElem h]
      rfl
    rw [ht, List.reverse_append]
    simp

theorem generate_of_length_le {σ Context : Type} [OutputIterator σ] (g : reverse_generator)
    (sink : σ) (value : List Char) (context : Context) (hle : value.length ≤ 2 ^ 31) :
    g.generate sink value context = (List.foldl OutputIterator.put sink value.reverse, true) := by
  unfold reverse_generator.generate
  congr 1
  rcases Nat.eq_zero_or_pos value.length with h0 | hpos
  · have hnil : value = [] := List.length_eq_zero.mp h0
    subst hnil
    rw [start_index_nil, for_down_neg _ _ _ (by decide)]
    rfl
  · rw [start_index_of_le value hpos hle]
    have hcast : (value.length : Int) - 1 = ((value.length - 1 : Nat) : Int) := by omega
    rw [hcast, for_down_put value (value.length - 1) (by omega)
      (by simp only [SIZE_BITS]; omega)]
    have hfull : value.length - 1 + 1 = value.length := by omega
    rw [hfull, List.take_length]

theorem foldl_put_capture (p w : List Char) :
    List.foldl OutputIterator.put p w = p ++ w := by
  induction w generalizing p with
  | nil => simp
  | cons c cs ih =>
    rw [List.foldl_cons, ih]
    simp [OutputIterator.put]

/-! ## Strings longer than `2^31` characters -/

theorem generate_of_start_neg {σ Context : Type} [OutputIterator σ] (g : reverse_generator)
    (sink : σ) (value : List Char) (context : Context) (hneg : start_index value < 0) :
    g.generate sink value context = (sink, true) := by
  unfold reverse_generator.generate
  rw [for_down_neg _ _ _ hneg]

theorem start_index_replicate_long (c : Char) :
    start_index (List.replicate (2 ^ 31 + 1) c) = -2 ^ 31 := by
  simp only [start_index, List.length_replicate, size_sub, to_int, SIZE_BITS, INT_BITS]
  norm_num

theorem generate_replicate_long {σ Context : Type} [OutputIterator σ] (g : reverse_generator)
    (sink : σ) (c : Char) (context : Context) :
    g.generate sink (List.replicate (2 ^ 31 + 1) c) context = (sink, true) := by
  apply generate_of_start_neg
  rw [start_index_replicate_long]
  norm_num

theorem replicate_long_ne_nil (c : Char) : List.replicate (2 ^ 31 + 1) c ≠ [] := by
  intro h
  have hlen := congrArg List.length h
  rw [List.length_replicate] at hlen
  exact absurd hlen (by norm_num)

/-! ## Worked scenarios -/

theorem generate_john_doe :
    reverse.generate ([] : List Char) "John Doe".toList () = ("eoD nhoJ".toList, true) := by
  rw [generate_of_length_le _ _ _ _ (by decide), foldl_put_capture]
  rfl

theorem generate_short_scenarios :
    reverse.generate ([] : List Char) "a".toList () = ("a".toList, true) ∧
    reverse.generate ([] : List Char) "ab".toList () = ("ba".toList, true) ∧
    reverse.generate ([] : List Char) "aabb".toList () = ("bbaa".toList, true) := by
  refine ⟨?_, ?_, ?_⟩ <;>
    (rw [generate_of_length_le _ _ _ _ (by decide), foldl_put_capture]; rfl)

/-! ## The claims -/

/-- Claim C1, evaluated where it fails: for a string of `2^31 + 1` characters the start
index `int i = value.length() - 1` wraps to a negative number, so `generate` writes
nothing to a capturing sink, whereas the reversed string is not empty. -/
theorem generate_long_string_not_reversed :
    (reverse.generate ([] : List Char) (List.replicate (2 ^ 31 + 1) 'a') ()).1 = [] ∧
    (reverse.generate ([] : List Char) (List.replicate (2 ^ 31 + 1) 'a') ()).1
      ≠ (List.replicate (2 ^ 31 + 1) 'a').reverse := by
  rw [generate_replicate_long]
  refine ⟨rfl, fun h => ?_⟩
  exact replicate_long_ne_nil 'a' (List.reverse_eq_nil_iff.mp h.symm)

/-- Claim C2, evaluated where it fails: for a string of `2^31 + 1` characters the number
of characters `generate` writes is `0`, not the length of the input. -/
theorem generate_long_string_length :
    (reverse.generate ([] : List Char) (List.replicate (2 ^ 31 + 1) 'a') ()).1.length = 0 ∧
    (List.replicate (2 ^ 31 + 1) 'a').length = 2 ^ 31 + 1 := by
  rw [generate_replicate_long]
  exact ⟨rfl, List.length_replicate _ _⟩

/-- Claim C3: for every string, every sink and every context, `generate` returns
`true`. -/
theorem generate_returns_true {σ Context : Type} [OutputIterator σ] (g : reverse_generator)
    (sink : σ) (value : List Char) (context : Context) :
    (g.generate sink value context).2 = true := rfl

/-- Claim C4: on the empty string the start index `value.length() - 1`, converted to
`int`, is `-1`; the loop body runs zero times (whatever the body is, and counting its
executions gives `0`), the sink is left as it was and the result is `true`. -/
theorem generate_empty {σ Context : Type} [OutputIterator σ] (g : reverse_generator)
    (sink : σ) (context : Context) :
    start_index [] = -1 ∧ start_index [] < 0 ∧
    (∀ (τ : Type) (body : Int → τ → τ) (s : τ), for_down body (start_index []) s = s) ∧
    for_down (fun _ count => count + 1) (start_index []) 0 = 0 ∧
    g.generate sink [] context = (sink, true) := by
  have hneg : start_index [] < 0 := by rw [start_index_nil]; decide
  exact ⟨start_index_nil, hneg, fun _ body s => for_down_neg body _ s hneg,
    for_down_neg _ _ _ hneg, generate_of_start_neg g sink [] context hneg⟩

/-- Claim C5, evaluated where it fails: capturing the output of `generate` on a string of
`2^31 + 1` characters and running `generate` on the captured output writes the empty
string, not the original one. -/
theorem generate_long_string_round_trip :
    (reverse.generate ([] : List Char)
      (reverse.generate ([] : List Char) (List.replicate (2 ^ 31 + 1) 'a') ()).1 ()).1 = [] ∧
    (reverse.generate ([] : List Char)
      (reverse.generate ([] : List Char) (List.replicate (2 ^ 31 + 1) 'a') ()).1 ()).1
      ≠ List.replicate (2 ^ 31 + 1) 'a' := by
  rw [generate_replicate_long]
  have h : (reverse.generate ([] : List Char) ([] : List Char) ()).1 = [] := by
    rw [generate_of_start_neg _ _ _ _ (by rw [start_index_nil]; decide)]
  exact ⟨h, fun e => replicate_long_ne_nil 'a' (by rw [← e, h])⟩

/-- Claim C6, refuted as stated: a sink with no room rejects the single write of the
input `a` (its fail flag is raised), and `generate` does not return `false`. -/
theorem generate_rejected_write_not_reported :
    ¬ ((reverse.generate (⟨[], 0, false⟩ : bounded_sink) ['a'] ()).1.failed = true →
        (reverse.generate (⟨[], 0, false⟩ : bounded_sink) ['a'] ()).2 = false) := by
  rw [generate_of_length_le _ _ _ _ (by decide)]
  decide

/-- Claim C6 as amended: for every input string and every sink, whatever way the sink has
of recording that it rejected a write, `generate` returns `true` also when a write was
rejected; the rejection is not reported through the boolean result. -/
theorem generate_true_despite_rejected_write {σ Context : Type} [OutputIterator σ]
    (rejected : σ → Bool) (g : reverse_generator) (sink : σ) (value : List Char)
    (context : Context) (_h : rejected (g.generate sink value context).1 = true) :
    (g.generate sink value context).2 = true := rfl

theorem generate_true_despite_rejected_write_witness :
    (reverse.generate (⟨[], 1, false⟩ : bounded_sink) ['a', 'b'] ()).1
      = (⟨['b'], 1, true⟩ : bounded_sink) ∧
    (reverse.generate (⟨[], 1, false⟩ : bounded_sink) ['a', 'b'] ()).2 = true :=
  have h : (reverse.generate (⟨[], 1, false⟩ : bounded_sink) ['a', 'b'] ()).1
      = (⟨['b'], 1, true⟩ : bounded_sink) := by
    rw [generate_of_length_le _ _ _ _ (by decide)]
    decide
  ⟨h, generate_true_despite_rejected_write bounded_sink.failed reverse _ _ ()
    (by rw [h])⟩

/-- Claim C7, evaluated where it fails: with `xy` already written to a capturing sink,
`generate` on a string of `2^31 + 1` characters leaves the sink content at `xy`; it is
not `xy` followed by the reversed string. -/
theorem generate_long_string_appends_nothing :
    (reverse.generate ['x', 'y'] (List.replicate (2 ^ 31 + 1) 'a') ()).1 = ['x', 'y'] ∧
    (reverse.generate ['x', 'y'] (List.replicate (2 ^ 31 + 1) 'a') ()).1
      ≠ ['x', 'y'] ++ (List.replicate (2 ^ 31 + 1) 'a').reverse := by
  rw [generate_replicate_long]
  refine ⟨rfl, fun h => ?_⟩
  have hnil : (List.replicate (2 ^ 31 + 1) 'a').reverse = [] :=
    List.self_eq_append_right.mp h
  exact replicate_long_ne_nil 'a' (List.reverse_eq_nil_iff.mp hnil)

/-- Claim C8: for every string and any two contexts, of whatever types, `generate` leaves
the sink in the same state (the same characters were written) and returns the same
result; the context is never read. -/
theorem generate_context_independent {σ Context₁ Context₂ : Type} [OutputIterator σ]
    (g : reverse_generator) (sink : σ) (value : List Char) (c1 : Context₁) (c2 : Context₂) :
    g.generate sink value c1 = g.generate sink value c2 := rfl

/-- Claim C10: the trait specialisations for `reverse_generator` give
`attributes_needed` the integral constant `1`, and make both `is_eager_generator` and
`is_generator` true. -/
theorem reverse_generator_traits :
    attributes_needed.value reverse_generator = 1 ∧
    is_eager_generator.value reverse_generator = true ∧
    is_generator.value reverse_generator = true := ⟨rfl, rfl, rfl⟩

/-! ## The loop run with fuel -/

/-- The indices `n, n - 1, ..., 0`, as `int` values. -/
theorem down_indices_succ (n : Nat) :
    ((List.range (n + 1 + 1)).reverse.map (fun k : Nat => (k : Int)))
      = ((n + 1 : Nat) : Int) :: ((List.range (n + 1)).reverse.map (fun k : Nat => (k : Int))) := by
  rw [List.range_succ (n := n + 1), List.reverse_append]
  rfl

theorem loop_run_neg {σ : Type} [OutputIterator σ] (value : List Char) (fuel : Nat) (i : Int)
    (s : σ) (h : i < 0) : loop_run value fuel i s = some ([], s) := by
  cases fuel with
  | zero => simp [loop_run, not_le.mpr h]
  | succ f => simp [loop_run, not_le.mpr h]

theorem loop_run_nat {σ : Type} [OutputIterator σ] (value : List Char) (n : Nat) (fuel : Nat)
    (s : σ) (hfuel : n + 1 ≤ fuel) :
    loop_run value fuel (n : Int) s
      = some ((List.range (n + 1)).reverse.map (fun k : Nat => (k : Int)),
          for_down (fun i s => OutputIterator.put s (char_at value i)) (n : Int) s) := by
  induction n generalizing fuel s with
  | zero =>
    obtain ⟨f, rfl⟩ : ∃ f, fuel = f + 1 := ⟨fuel - 1, by omega⟩
    rw [for_down_nonneg _ _ _ (by simp), for_down_neg _ _ _ (by simp)]
    simp only [loop_run]
    rw [if_pos (by simp), loop_run_neg _ _ _ _ (by simp)]
    rfl
  | succ n ih =>
    obtain ⟨f, rfl⟩ : ∃ f, fuel = f + 1 := ⟨fuel - 1, by omega⟩
    have hstep : ((n + 1 : Nat) : Int) - 1 = (n : Int) := by push_cast; ring
    rw [for_down_nonneg _ _ _ (by positivity), down_indices_succ]
    simp only [loop_run]
    rw [if_pos (by positivity), hstep, ih f _ (by omega)]
    rfl

/-! ## The start index for strings of every length -/

theorem start_index_cases (value : List Char) :
    start_index value < 0 ∨
    ∃ n : Nat, start_index value = (n : Int) ∧ n < value.length ∧ n < 2 ^ 31 := by
  by_cases hlt : size_sub value.length 1 % 2 ^ INT_BITS < 2 ^ (INT_BITS - 1)
  · right
    refine ⟨size_sub value.length 1 % 2 ^ INT_BITS, ?_, ?_, ?_⟩
    · simp only [start_index, to_int, if_pos hlt]
    · simp only [size_sub, SIZE_BITS, INT_BITS] at hlt ⊢
      omega
    · simp only [INT_BITS] at hlt ⊢
      omega
  · left
    simp only [start_index, to_int, if_neg hlt]
    have hmod : size_sub value.length 1 % 2 ^ INT_BITS < 2 ^ INT_BITS :=
      Nat.mod_lt _ (by positivity)
    omega

theorem start_index_neg_of_long (value : List Char) (hlong : 2 ^ 31 < value.length)
    (hle : value.length ≤ 2 ^ 32) : start_index value < 0 := by
  have h1 : size_sub value.length 1 = value.length - 1 := by
    simp only [size_sub, SIZE_BITS]
    omega
  have hge : ¬ (value.length - 1) % 2 ^ INT_BITS < 2 ^ (INT_BITS - 1) := by
    simp only [INT_BITS]
    omega
  simp only [start_index, h1, to_int, if_neg hge, INT_BITS]
  omega

theorem generate_of_start_nat {σ Context : Type} [OutputIterator σ] (g : reverse_generator)
    (sink : σ) (value : List Char) (context : Context) (n : Nat)
    (hstart : start_index value = (n : Int)) (hlt : n < value.length) (hn : n < 2 ^ 31) :
    g.generate sink value context
      = (List.foldl OutputIterator.put sink (value.take (n + 1)).reverse, true) := by
  unfold reverse_generator.generate
  rw [hstart, for_down_put value n hlt (by simp only [SIZE_BITS]; omega)]

theorem generate_capture_length_le (value : List Char) :
    (reverse.generate ([] : List Char) value ()).1.length ≤ 2 ^ 31 := by
  rcases start_index_cases value with hneg | ⟨n, hstart, hlt, hn⟩
  · rw [generate_of_start_neg _ _ _ _ hneg]
    exact Nat.zero_le _
  · rw [generate_of_start_nat _ _ _ _ n hstart hlt hn, foldl_put_capture]
    simp only [List.nil_append, List.length_reverse, List.length_take]
    omega

theorem loop_run_generate {σ Context : Type} [OutputIterator σ] (g : reverse_generator)
    (sink : σ) (value : List Char) (context : Context) :
    ∃ trace : List Int,
      loop_run value value.length (start_index value) sink
        = some (trace, (g.generate sink value context).1) ∧
      (trace = [] ∨ ∃ n : Nat, n < value.length ∧ n < 2 ^ 31 ∧
        trace = (List.range (n + 1)).reverse.map (fun k : Nat => (k : Int))) := by
  rcases start_index_cases value with hneg | ⟨n, hstart, hlt, hn⟩
  · refine ⟨[], ?_, Or.inl rfl⟩
    rw [loop_run_neg _ _ _ _ hneg, generate_of_start_neg _ _ _ _ hneg]
  · refine ⟨_, ?_, Or.inr ⟨n, hlt, hn, rfl⟩⟩
    rw [hstart, loop_run_nat value n value.length sink (by omega)]
    unfold reverse_generator.generate
    rw [hstart]

theorem down_indices_pairwise (n : Nat) :
    ((List.range (n + 1)).reverse.map (fun k : Nat => (k : Int))).Pairwise
      (fun a b => b < a) := by
  rw [List.pairwise_map, List.pairwise_reverse]
  exact (List.pairwise_lt_range (n + 1)).imp (fun h => by exact_mod_cast h)

theorem mem_down_indices (n : Nat) (i : Int)
    (h : i ∈ (List.range (n + 1)).reverse.map (fun k : Nat => (k : Int))) :
    ∃ k : Nat, i = (k : Int) ∧ k ≤ n := by
  rw [List.mem_map] at h
  obtain ⟨k, hk, rfl⟩ := h
  rw [List.mem_reverse, List.mem_range] at hk
  exact ⟨k, rfl, by omega⟩

/-! ## The claims on the loop -/

/-- Claim C11: for every input string the countdown loop of `generate` terminates. Run
with as many iterations allowed as the string has characters, the loop exits and leaves
the sink that `generate` returns; the number of iterations (reads of `value[i]`) is at
most the length of the string; the values taken by `i` in successive iterations strictly
decrease; and from any `i < 0` the loop exits at once, without touching the sink. -/
theorem generate_loop_terminates {σ Context : Type} [OutputIterator σ]
    (g : reverse_generator) (sink : σ) (value : List Char) (context : Context) :
    (∃ trace : List Int,
      loop_run value value.length (start_index value) sink
        = some (trace, (g.generate sink value context).1) ∧
      trace.length ≤ value.length ∧
      trace.Pairwise (fun a b => b < a)) ∧
    (∀ (fuel : Nat) (i : Int) (s : σ), i < 0 → loop_run value fuel i s = some ([], s)) := by
  refine ⟨?_, fun fuel i s h => loop_run_neg value fuel i s h⟩
  obtain ⟨trace, hrun, htrace⟩ := loop_run_generate g sink value context
  refine ⟨trace, hrun, ?_, ?_⟩
  · rcases htrace with rfl | ⟨n, hlt, _, rfl⟩
    · exact Nat.zero_le _
    · rw [List.length_map, List.length_reverse, List.length_range]
      omega
  · rcases htrace with rfl | ⟨n, _, _, rfl⟩
    · exact List.Pairwise.nil
    · exact down_indices_pairwise n

theorem generate_loop_terminates_witness :
    (-1 : Int) < 0 ∧
    loop_run "John Doe".toList 3 (-1) "xy".toList = some ([], "xy".toList) :=
  ⟨by decide,
    (generate_loop_terminates reverse ([] : List Char) "John Doe".toList ()).2
      3 (-1) "xy".toList (by decide)⟩

/-- Claim C12: for every string, the empty one and those longer than `INT_MAX` included,
every index `i` at which `generate` reads `value[i]` satisfies `0 <= i < length`, also
after its conversion to `size_t`; the lookup finds a character of the string there, so
the out-of-range branch of `char_at` is never taken. -/
theorem generate_reads_in_bounds {σ Context : Type} [OutputIterator σ]
    (g : reverse_generator) (sink : σ) (value : List Char) (context : Context) :
    ∃ trace : List Int,
      loop_run value value.length (start_index value) sink
        = some (trace, (g.generate sink value context).1) ∧
      ∀ i ∈ trace, 0 ≤ i ∧ i < (value.length : Int) ∧ to_size i < value.length ∧
        ∃ c : Char, value.get? (to_size i) = some c ∧ char_at value i = c := by
  obtain ⟨trace, hrun, htrace⟩ := loop_run_generate g sink value context
  refine ⟨trace, hrun, fun i hi => ?_⟩
  rcases htrace with rfl | ⟨n, hlt, hn, rfl⟩
  · simp at hi
  · obtain ⟨k, rfl, hk⟩ := mem_down_indices n i hi
    have hklt : k < value.length := by omega
    have hsize : to_size (k : Int) = k := to_size_of_nat k (by simp only [SIZE_BITS]; omega)
    refine ⟨by positivity, by exact_mod_cast hklt, by rw [hsize]; exact hklt, ?_⟩
    refine ⟨value.get ⟨k, hklt⟩, ?_, char_at_of_lt value k hklt (by simp only [SIZE_BITS]; omega)⟩
    rw [hsize, List.get?_eq_get hklt]

theorem generate_reads_in_bounds_witness :
    (1 : Int) ∈ ([1, 0] : List Int) ∧ to_size 1 < "ab".toList.length ∧
    char_at "ab".toList 1 = 'b' := by
  obtain ⟨trace, hrun, hall⟩ :=
    generate_reads_in_bounds reverse ([] : List Char) "ab".toList ()
  have hconcrete : loop_run "ab".toList "ab".toList.length (start_index "ab".toList)
      ([] : List Char) = some ([1, 0], "ba".toList) := by decide
  have htrace : trace = [1, 0] := by
    rw [hconcrete] at hrun
    exact (congrArg Prod.fst (Option.some.inj hrun)).symm
  subst htrace
  have hmem : (1 : Int) ∈ ([1, 0] : List Int) := by decide
  obtain ⟨_, _, hsize, _, _, _⟩ := hall 1 hmem
  exact ⟨hmem, hsize, by decide⟩

/-- Claim C13: with `value.length() - 1` computed in 64 bits and converted to a 32-bit
`int`, the output of `generate` into an empty capturing sink is the reversed string if
and only if the string has at most `2^31` characters; for every longer string fewer
characters are written than the string has, none at all when its length is at most
`2^32`; and the result is `true` in every case. -/
theorem generate_int_width_limit (value : List Char) :
    ((reverse.generate ([] : List Char) value ()).1 = value.reverse ↔ value.length ≤ 2 ^ 31) ∧
    (2 ^ 31 < value.length →
      (reverse.generate ([] : List Char) value ()).1.length < value.length) ∧
    (2 ^ 31 < value.length → value.length ≤ 2 ^ 32 →
      (reverse.generate ([] : List Char) value ()).1 = []) ∧
    (reverse.generate ([] : List Char) value ()).2 = true := by
  have hshort : 2 ^ 31 < value.length →
      (reverse.generate ([] : List Char) value ()).1.length < value.length :=
    fun hlong => lt_of_le_of_lt (generate_capture_length_le value) hlong
  refine ⟨⟨fun heq => ?_, fun hle => ?_⟩, hshort, fun hlong hle => ?_, rfl⟩
  · by_contra hnot
    have hlen := hshort (by omega)
    rw [heq, List.length_reverse] at hlen
    exact lt_irrefl _ hlen
  · rw [generate_of_length_le _ _ _ _ hle, foldl_put_capture]
    rfl
  · rw [generate_of_start_neg _ _ _ _ (start_index_neg_of_long value hlong hle)]

theorem generate_int_width_limit_witness :
    2 ^ 31 < (List.replicate (2 ^ 31 + 1) 'b').length ∧
    (List.replicate (2 ^ 31 + 1) 'b').length ≤ 2 ^ 32 ∧
    (reverse.generate ([] : List Char) (List.replicate (2 ^ 31 + 1) 'b') ()).1 = [] :=
  have hlen : (List.replicate (2 ^ 31 + 1) 'b').length = 2 ^ 31 + 1 :=
    List.length_replicate _ _
  have hlong : 2 ^ 31 < (List.replicate (2 ^ 31 + 1) 'b').length := by
    rw [hlen]; exact Nat.lt_succ_self _
  have hle : (List.replicate (2 ^ 31 + 1) 'b').length ≤ 2 ^ 32 := by
    rw [hlen]; decide
  ⟨hlong, hle, (generate_int_width_limit (List.replicate (2 ^ 31 + 1) 'b')).2.2.1 hlong hle⟩

/-! ## The demo driver -/

theorem foldl_put_console (streams : console) (w : List Char) :
    List.foldl OutputIterator.put streams w = ⟨streams.cout ++ w, streams.cerr⟩ := by
  induction w generalizing streams with
  | nil => simp
  | cons c cs ih =>
    rw [List.foldl_cons, ih]
    simp [OutputIterator.put]

/-- Claim C14: `as_generator` applied to `reverse` is `reverse`; `main` appends
`eoD nhoJ` and a newline (the character with code 10) to standard output, leaves the
diagnostic stream as it was and returns `0` (from empty streams: standard output is
exactly `eoD nhoJ` and a newline, the diagnostic stream is empty); and the statements
after the call take the branch that prints `Failed!` and a newline to the diagnostic
stream and returns `1` exactly when `generate` returned `false`. -/
theorem main_prints_reversed_john_doe (argc : Int) (argv : List (List Char))
    (streams : console) :
    as_generator reverse rfl = reverse ∧
    main argc argv streams
      = (⟨streams.cout ++ "eoD nhoJ\n".toList, streams.cerr⟩, 0) ∧
    main argc argv ⟨[], []⟩
      = (⟨['e', 'o', 'D', ' ', 'n', 'h', 'o', 'J', Char.ofNat 10], []⟩, 0) ∧
    (∀ r : console × Bool,
      main_after r = (⟨r.1.cout, r.1.cerr ++ "Failed!\n".toList⟩, 1) ↔ r.2 = false) ∧
    (∀ r : console × Bool,
      main_after r = (⟨r.1.cout ++ [Char.ofNat 10], r.1.cerr⟩, 0) ↔ r.2 = true) := by
  have hmain : ∀ st : console, main argc argv st
      = (⟨st.cout ++ "eoD nhoJ\n".toList, st.cerr⟩, 0) := by
    intro st
    unfold main as_generator
    rw [generate_of_length_le _ _ _ _ (by decide), foldl_put_console]
    simp [main_after, endl]
  refine ⟨rfl, hmain streams, hmain ⟨[], []⟩, fun r => ?_, fun r => ?_⟩
  · rcases r with ⟨st, b⟩
    cases b <;> simp [main_after, endl]
  · rcases r with ⟨st, b⟩
    cases b <;> simp [main_after, endl]

/-! ## Determinism -/

theorem generate_replays_capture {σ Context : Type} [OutputIterator σ]
    (g : reverse_generator) (sink : σ) (value : List Char) (context : Context) :
    g.generate sink value context
      = (List.foldl OutputIterator.put sink
          (reverse.generate ([] : List Char) value ()).1, true) := by
  rcases start_index_cases value with hneg | ⟨n, hstart, hlt, hn⟩
  · rw [generate_of_start_neg g sink value context hneg,
      generate_of_start_neg reverse ([] : List Char) value () hneg]
    rfl
  · rw [generate_of_start_nat g sink value context n hstart hlt hn,
      generate_of_start_nat reverse ([] : List Char) value () n hstart hlt hn,
      foldl_put_capture, List.nil_append]

/-- Claim C9: the characters a call of `generate` writes are a function of the string
alone: whatever the generator object, the sink and the context, the call writes to its
sink, in order, exactly the sequence a capturing sink records for that string, and
returns `true`. So two calls with the same string into two sinks that start out identical
end with identical sinks and the same result; and a call made after another call writes
that same sequence again, nothing being retained from the first call. -/
theorem generate_deterministic {σ Context : Type} [OutputIterator σ]
    (g1 g2 : reverse_generator) (sink1 sink2 : σ) (value : List Char) (context : Context)
    (h : sink1 = sink2) :
    g1.generate sink1 value context
      = (List.foldl OutputIterator.put sink1
          (reverse.generate ([] : List Char) value ()).1, true) ∧
    g2.generate sink2 value context
      = (List.foldl OutputIterator.put sink2
          (reverse.generate ([] : List Char) value ()).1, true) ∧
    g1.generate sink1 value context = g2.generate sink2 value context ∧
    g2.generate (g1.generate sink1 value context).1 value context
      = (List.foldl OutputIterator.put sink1
          ((reverse.generate ([] : List Char) value ()).1
            ++ (reverse.generate ([] : List Char) value ()).1), true) := by
  subst h
  refine ⟨generate_replays_capture g1 sink1 value context,
    generate_replays_capture g2 sink1 value context, ?_, ?_⟩
  · rw [generate_replays_capture g1, generate_replays_capture g2]
  · rw [generate_replays_capture g2, generate_replays_capture g1, List.foldl_append]

theorem generate_deterministic_witness :
    (⟨['x'], 5, false⟩ : bounded_sink) = ⟨['x'], 5, false⟩ ∧
    reverse.generate (⟨['x'], 5, false⟩ : bounded_sink) "John".toList ()
      = (⟨⟩ : reverse_generator).generate (⟨['x'], 5, false⟩ : bounded_sink)
          "John".toList () :=
  ⟨rfl, (generate_deterministic reverse ⟨⟩ (⟨['x'], 5, false⟩ : bounded_sink)
    ⟨['x'], 5, false⟩ "John".toList () rfl).2.2.1⟩

end CppGenerators
